import Mathlib

/-!
# Verification of the `expect-firestore` document-tree model and test-case translator

A shallow embedding of the core of `expect-firestore` (`src/database.js`,
`src/batch.js`, `src/assert.js`): the in-memory collection/document tree, path
resolution (`getCollection` / `getDocument` / `hasDocument` / `getDocuments`),
the function-mock synthesizer (`createMockFunctions`,
`createBatchAfterFunctionMocks`), the commit-test translator
(`createCommitTest`), the result aggregation of `testRules`, and the `assert`
helper.

JavaScript objects are embedded as insertion-ordered association lists, and
JavaScript values as the inductive `Value`.  The in-place mutation that
`createBatchAfterFunctionMocks` performs on `doc.fields` (through the
`object-set` dependency) is modelled by explicit state passing: the functions
that mutate the database return the updated collections value alongside their
result.
-/

namespace ExpectFirestore

/-- A JavaScript (JSON-like) runtime value: the field values stored in
documents, update payloads and mock results.  Objects are insertion-ordered
association lists, as JavaScript object literals are. -/
inductive Value : Type where
  | null : Value
  | bool (b : Bool) : Value
  | num (n : Int) : Value
  | str (s : String) : Value
  | arr (items : List Value) : Value
  | obj (fields : List (String × Value)) : Value

/-- JavaScript truthiness of a `Value` (`undefined`/`null`, `false`, `0` and
`""` are falsy; every array and object, including `{}`, is truthy). -/
def Value.truthy : Value → Bool
  | .null => false
  | .bool b => b
  | .num n => n != 0
  | .str s => s != ""
  | .arr _ => true
  | .obj _ => true

/-- A document of the fixture dataset (`types.js`: `Document`): a key, a
`fields` object, and named sub-collections, recursively. -/
inductive Doc : Type where
  | mk (key : String) (fields : List (String × Value))
      (collections : List (String × List Doc)) : Doc

/-- `Document.key`. -/
def Doc.key : Doc → String
  | .mk k _ _ => k

/-- `Document.fields`. -/
def Doc.fields : Doc → List (String × Value)
  | .mk _ f _ => f

/-- `Document.collections`. -/
def Doc.collections : Doc → List (String × List Doc)
  | .mk _ _ c => c

/-- `types.js`: `Collection` — an ordered sequence of documents. -/
abbrev Collection := List Doc

/-- `types.js`: `Collections` — a mapping collection name → collection,
embedded as an insertion-ordered association list. -/
abbrev Collections := List (String × Collection)

/-- A `fields` object of a document, or an update payload. -/
abbrev Fields := List (String × Value)

/-- First-match association-list lookup: JavaScript property access
`o[name]` returning `undefined` as `none`. -/
def assocFind {α : Type} (l : List (String × α)) (name : String) : Option α :=
  (l.find? (fun kv => kv.1 == name)).map (fun kv => kv.2)

/-- `collections[collectionName] || []` — property access defaulting to the
empty collection. -/
def lookupOrNil (colls : Collections) (name : String) : Collection :=
  (assocFind colls name).getD []

/-! ## Path splitting

`database.js` splits paths with Node's `Path.basename` / `Path.dirname`.
On the slash-separated relative paths the library works with (no leading
slash, non-empty segments) these return the last segment and the join of the
remaining segments (`"."` when there is none).  We implement that behaviour
directly over character lists. -/

/-- Split a character list on a separator character; always returns at least
one (possibly empty) segment, and no segment contains the separator. -/
def splitChar (sep : Char) : List Char → List (List Char)
  | [] => [[]]
  | c :: rest =>
    if c = sep then [] :: splitChar sep rest
    else
      match splitChar sep rest with
      | [] => [[c]]
      | s :: ss => (c :: s) :: ss

/-- Join segments with a separator character (inverse of `splitChar`). -/
def joinChar (sep : Char) : List (List Char) → List Char
  | [] => []
  | [s] => s
  | s :: rest => s ++ sep :: joinChar sep rest

/-- The slash-separated segments of a path string. -/
def segments (p : String) : List (List Char) :=
  splitChar '/' p.data

/-- Number of slash-separated segments of a path (always at least 1). -/
def numSegs (p : String) : Nat :=
  (segments p).length

/-- Node `Path.basename` on the relative slash paths used by the library:
the last slash-separated segment. -/
def basename (p : String) : String :=
  String.mk ((segments p).getLastD [])

/-- Node `Path.dirname` on the relative slash paths used by the library:
all but the last segment, joined by slashes, or `"."` for a single-segment
path. -/
def dirname (p : String) : String :=
  if (segments p).length ≤ 1 then "."
  else String.mk (joinChar '/' (segments p).dropLast)

/-! ## Path resolution (`getCollection` / `getDocument`)

`Database.getCollection` and `Database.getDocument` (`database.js` lines
64–92) are mutually recursive through `Path.dirname`.  We embed them with an
explicit fuel argument (`none` = fuel exhausted); the termination theorem
shows that fuel `numSegs p + 1` always suffices, and the fuelless wrappers
run with that fuel. -/

mutual

/-- Fuel-indexed `Database.getCollection`: resolve a collection path against
the dataset.  `none` means the fuel ran out. -/
def getCollectionF : Nat → Collections → String → Option Collection
  | 0, _, _ => none
  | fuel + 1, db, collectionPath =>
    let collectionName := basename collectionPath
    let docPath := dirname collectionPath
    if docPath = "." then
      some (lookupOrNil db collectionName)
    else
      match getDocumentF fuel db docPath with
      | none => none
      | some none => some []
      | some (some doc) => some (lookupOrNil doc.collections collectionName)

/-- Fuel-indexed `Database.getDocument`: resolve a document path; the inner
option is the `find` result (`none` = absent document).  The outer `none`
means the fuel ran out. -/
def getDocumentF : Nat → Collections → String → Option (Option Doc)
  | 0, _, _ => none
  | fuel + 1, db, docPath =>
    let docId := basename docPath
    let collectionPath := dirname docPath
    match getCollectionF fuel db collectionPath with
    | none => none
    | some collection => some (collection.find? (fun doc => doc.key == docId))

end

/-- `Database.getCollection` (`database.js` lines 64–81), run with enough
fuel for the path. -/
def getCollection (db : Collections) (collectionPath : String) : Collection :=
  (getCollectionF (numSegs collectionPath + 1) db collectionPath).getD []

/-- `Database.getDocument` (`database.js` lines 86–92), run with enough fuel
for the path. -/
def getDocument (db : Collections) (docPath : String) : Option Doc :=
  (getDocumentF (numSegs docPath + 1) db docPath).getD none

/-- `Database.hasDocument` (`database.js` lines 97–99). -/
def hasDocument (db : Collections) (docPath : String) : Bool :=
  (getDocument db docPath).isSome

/-! ## Enumeration of all documents (`getDocuments`) -/

/-- One entry of the `getDocuments` result: `{ path, doc }`. -/
structure Entry where
  path : String
  doc : Doc

/-- Node `Path.join(parent, name)` for the plain relative names the library
joins: drop an empty parent, otherwise insert a slash. -/
def joinPath (parent name : String) : String :=
  if parent = "" then name else parent ++ "/" ++ name

mutual

/-- The outer `Object.keys(collections).reduce` of `Database.getDocuments`
(`database.js` lines 104–127), with the accumulator `result` explicit:
for each collection (in insertion order) append that collection's entries. -/
def getDocumentsColls : Collections → String → List Entry → List Entry
  | [], _, result => result
  | (collectionName, coll) :: rest, parentPath, result =>
    let collectionPath := joinPath parentPath collectionName
    let docs := getDocumentsDocs coll collectionPath []
    getDocumentsColls rest parentPath (result ++ docs)

/-- The inner `collections[collectionName].reduce` of `Database.getDocuments`:
for each document prepend its entry to the accumulated `_docs` and append the
recursively enumerated children (`[{path, doc}].concat(_docs).concat(children)`). -/
def getDocumentsDocs : Collection → String → List Entry → List Entry
  | [], _, _docs => _docs
  | .mk key fields colls :: rest, collectionPath, _docs =>
    let docPath := joinPath collectionPath key
    let children := getDocumentsColls colls docPath []
    getDocumentsDocs rest collectionPath
      ([{ path := docPath, doc := .mk key fields colls }] ++ _docs ++ children)

end

/-- `Database.getDocuments` (`database.js` lines 104–127) at its default
arguments the whole dataset is enumerated from the root (`parentPath = ""`);
the recursive calls pass a document's sub-collections and path. -/
def getDocuments (collections : Collections) (parentPath : String) : List Entry :=
  getDocumentsColls collections parentPath []

/-! ## Function mocks -/

/-- A mock argument matcher: `{ exact_value: path }` or `{ anyValue: {} }`. -/
inductive MockArg : Type where
  | exactValue (s : String) : MockArg
  | anyValue : MockArg

/-- `types.js`: `FirestoreMockFunction` — `{ function, args, result: { value } }`. -/
structure FunctionMock where
  function : String
  args : List MockArg
  value : Value

/-- `createDocumentPath` (`database.js` lines 432–434). -/
def createDocumentPath (path : String) : String :=
  "/databases/(default)/documents/" ++ path

/-- `createFunctionMock` (`database.js` lines 436–448). -/
def createFunctionMock (functionName : String) (arg : String) (value : Value) :
    FunctionMock :=
  { function := functionName, args := [.exactValue arg], value := value }

/-- `Database.createMockFunctions` (`database.js` lines 356–400): three
wildcard defaults followed by a `get`/`exists` pair per enumerated document
(the entries of `getDocuments` always carry a document, so the source's
`doc ? { data: doc.fields } : null` and `!!doc` evaluate to
`{ data: doc.fields }` and `true`). -/
def createMockFunctions (db : Collections) : List FunctionMock :=
  let documents := getDocuments db ""
  let defaults : List FunctionMock :=
    [ { function := "get", args := [.anyValue], value := .null },
      { function := "getAfter", args := [.anyValue], value := .null },
      { function := "exists", args := [.anyValue], value := .bool false } ]
  let docMocks := documents.foldl
    (fun functions e =>
      functions ++
        [ createFunctionMock "get" (createDocumentPath e.path)
            (.obj [("data", .obj e.doc.fields)]),
          createFunctionMock "exists" (createDocumentPath e.path) (.bool true) ])
    []
  defaults ++ docMocks

/-! ## Batch operations (`batch.js`) -/

/-- `batch.js`: `BatchOperation` — the tagged union produced by the
`Batch.set` / `Batch.update` / `Batch.delete` factories (`method`,
`document`, `data`). -/
inductive BatchOperation : Type where
  | set (document : String) (data : Value) : BatchOperation
  | update (document : String) (data : Fields) : BatchOperation
  | delete (document : String) : BatchOperation

/-- `operation.method` — the tag string of a batch operation. -/
def BatchOperation.method : BatchOperation → String
  | .set _ _ => "set"
  | .update _ _ => "update"
  | .delete _ => "delete"

/-- `operation.document` — the target document path. -/
def BatchOperation.document : BatchOperation → String
  | .set d _ => d
  | .update d _ => d
  | .delete d => d

/-- `operation.data || null` — the operation's payload, with JavaScript's
`||` falling back to `null` for a falsy payload and for `delete` (whose
`data` property is `undefined`; objects, including `{}`, are truthy). -/
def BatchOperation.dataOrNull : BatchOperation → Value
  | .set _ data => if data.truthy then data else .null
  | .update _ data => Value.obj data
  | .delete _ => .null

/-! ## Dotted-path assignment (the `object-set` dependency)

`createBatchAfterFunctionMocks` applies each key of an update payload with
`set(after, key, value)` from the npm package `object-set`, whose source is
not part of this repository. -/

/-- JavaScript property assignment `o[k] = v` on an insertion-ordered object:
overwrite the first existing entry in place, otherwise append. -/
def setKey (fields : Fields) (k : String) (v : Value) : Fields :=
  match fields with
  | [] => [(k, v)]
  | (k', v') :: rest => if k' = k then (k', v) :: rest else (k', v') :: setKey rest k v

/-- Modelled from the spec: the `object-set` npm dependency (not under
`src/`), walking an already-split dotted path — "each key in the update's
data mapping applied via dotted-path assignment (so `{"a.b": 1}` sets nested
field `b` of top-level field `a`, creating intermediate objects as needed)".
An intermediate segment whose current value is an object is descended into;
otherwise a fresh empty object is created. -/
def setPathSegs (fields : Fields) : List String → Value → Fields
  | [], _ => fields
  | [k], v => setKey fields k v
  | k :: rest, v =>
    let child : Fields :=
      match assocFind fields k with
      | some (.obj o) => o
      | _ => []
    setKey fields k (.obj (setPathSegs child rest v))

/-- Modelled from the spec: `object-set`'s `set(obj, key, value)` — split the
key on dots and assign along the resulting path. -/
def objectSet (fields : Fields) (key : String) (v : Value) : Fields :=
  setPathSegs fields ((splitChar '.' key.data).map String.mk) v

/-- The `Object.keys(operation.data).forEach(key => set(after, key,
operation.data[key]))` loop of `createBatchAfterFunctionMocks`: apply every
key of the update payload, in insertion order, by dotted-path assignment. -/
def applyUpdate (fields : Fields) (data : Fields) : Fields :=
  data.foldl (fun after kv => objectSet after kv.1 kv.2) fields

/-! ## Writing back a document's fields

In `createBatchAfterFunctionMocks` the variable `after` aliases `doc.fields`
for an `update` on an existing document, so the `object-set` calls mutate the
document stored in the Database.  Value-semantically the mutated state is the
dataset with the fields of the document that `getDocument` resolved replaced;
`modifyDocF` / `modifyCollF` mirror the resolution of `getDocumentF` /
`getCollectionF` to rebuild the tree at exactly that document. -/

/-- Replace the first list element satisfying `p` by `f` of it (no-op when no
element matches). -/
def replaceFirst {α : Type} (p : α → Bool) (f : α → α) : List α → List α
  | [] => []
  | a :: rest => if p a then f a :: rest else a :: replaceFirst p f rest

/-- Modify the value of the first association-list entry with the given name
(no-op when the name is absent). -/
def assocModify {α : Type} (l : List (String × α)) (name : String) (f : α → α) :
    List (String × α) :=
  replaceFirst (fun kv => kv.1 == name) (fun kv => (kv.1, f kv.2)) l

mutual

/-- Apply `f` to the document that `getDocumentF` would resolve at `docPath`
(fuel-indexed like the resolution; the dataset is returned unchanged when the
path does not resolve or the fuel runs out). -/
def modifyDocF : Nat → Collections → String → (Doc → Doc) → Collections
  | 0, db, _, _ => db
  | fuel + 1, db, docPath, f =>
    let docId := basename docPath
    let collectionPath := dirname docPath
    modifyCollF fuel db collectionPath (replaceFirst (fun doc => doc.key == docId) f)

/-- Apply `f` to the collection that `getCollectionF` would resolve at
`collectionPath`, rebuilding the ancestors. -/
def modifyCollF : Nat → Collections → String → (Collection → Collection) → Collections
  | 0, db, _, _ => db
  | fuel + 1, db, collectionPath, f =>
    let collectionName := basename collectionPath
    let docPath := dirname collectionPath
    if docPath = "." then assocModify db collectionName f
    else
      modifyDocF fuel db docPath
        (fun doc => .mk doc.key doc.fields (assocModify doc.collections collectionName f))

end

/-- The dataset with the fields of the document at `docPath` (as resolved by
`getDocument`) replaced; unchanged when no document resolves there. -/
def setDocFields (db : Collections) (docPath : String) (fields : Fields) : Collections :=
  modifyDocF (numSegs docPath + 1) db docPath
    (fun doc => .mk doc.key fields doc.collections)

/-! ## After-write mocks (`createBatchAfterFunctionMocks`) -/

/-- The loop body of `Database.createBatchAfterFunctionMocks` (`database.js`
lines 405–429) for one batch operation: compute the `after` value
(`set` → the operation's data, `delete` → `null`, `update` → the prior fields
— `{}` when the document does not exist — with every payload key applied by
dotted-path assignment) and emit the `getAfter` exact-match mock
`after ? { data: after } : null`.  For an `update` on an existing document
the `object-set` calls mutate `doc.fields` in place; the returned collections
value is the dataset after that mutation. -/
def createBatchAfterFunctionMockStep (db : Collections) (operation : BatchOperation) :
    FunctionMock × Collections :=
  let doc := getDocument db operation.document
  let afterAndDb : Value × Collections :=
    match operation with
    | .set _ data => (data, db)
    | .delete _ => (.null, db)
    | .update p data =>
      match doc with
      | some d => (.obj (applyUpdate d.fields data), setDocFields db p (applyUpdate d.fields data))
      | none => (.obj (applyUpdate [] data), db)
  (createFunctionMock "getAfter" (createDocumentPath operation.document)
    (if afterAndDb.1.truthy then .obj [("data", afterAndDb.1)] else .null),
   afterAndDb.2)

/-- `Database.createBatchAfterFunctionMocks` (`database.js` lines 405–429):
`batch.map` over the operations, evaluated left to right against the live
(mutating) dataset; returns the mocks in batch order together with the final
dataset. -/
def createBatchAfterFunctionMocks (db : Collections) (batch : List BatchOperation) :
    List FunctionMock × Collections :=
  batch.foldl
    (fun acc operation =>
      let step := createBatchAfterFunctionMockStep acc.2 operation
      (acc.1 ++ [step.1], step.2))
    ([], db)

/-! ## The commit-test translator (`createCommitTest`) -/

/-- `types.js`: `FirestoreAuth` — `{ uid?: string }`. -/
structure Auth where
  uid : Option String

/-- The `request` of a test case: `{ auth, path, method }`. -/
structure TestRequest where
  auth : Auth
  path : String
  method : String

/-- The `resource` of a test case: `{ data }`. -/
structure TestResource where
  data : Value

/-- `types.js`: `FirestoreTestCase` — `{ expectation, request, resource,
functionMocks }`. -/
structure FirestoreTestCase where
  expectation : String
  request : TestRequest
  resource : TestResource
  functionMocks : List FunctionMock

/-- `Database.createCommitTest` (`database.js` lines 316–351): build the base
mocks, then the after-mocks for the whole batch (mutating the dataset as
described above), and translate each operation into a test case sharing the
concatenated mock list.  The `batch.map` runs after the after-mock
construction, so its `getDocument` calls see the mutated dataset. -/
def createCommitTest (db : Collections) (allow : Bool) (auth : Auth)
    (batch : List BatchOperation) : List FirestoreTestCase × Collections :=
  let expectation := if allow then "ALLOW" else "DENY"
  let baseFunctionMocks := createMockFunctions db
  let afterPair := createBatchAfterFunctionMocks db batch
  let functionMocks := baseFunctionMocks ++ afterPair.1
  (batch.map
    (fun operation =>
      let doc := getDocument afterPair.2 operation.document
      let method :=
        if operation.method == "set" then (if doc.isSome then "update" else "create")
        else operation.method
      { expectation := expectation,
        request :=
          { auth := auth,
            path := createDocumentPath operation.document,
            method := method },
        resource := { data := operation.dataOrNull },
        functionMocks := functionMocks }),
   afterPair.2)

/-! ## Result aggregation (`testRules`) and the assertion helper -/

/-- An element of the oracle's `testResults`: the fields the library reads. -/
structure OracleResult where
  state : String
  debugMessages : Option (List String)

/-- One element of `TestSummary.tests`: `{ case: testCases[i], result }`
(the case is `undefined` when the oracle returned more results than cases). -/
structure TestPair where
  case : Option FirestoreTestCase
  result : OracleResult

/-- `types.js`: `TestSummary` — `{ success, tests }`. -/
structure TestSummary where
  success : Bool
  tests : List TestPair

/-- The result-aggregation portion of `Database.testRules` (`database.js`
lines 211–225): `success` starts `true` and each oracle result contributes
`result.state == 'SUCCESS' && success`; `tests` pairs `testCases[i]` with the
i-th result.  (The network transport and the `issues` branch are outside the
model.) -/
def testRulesSummary (testCases : List FirestoreTestCase)
    (testResults : List OracleResult) : TestSummary :=
  { success := testResults.foldl (fun success result => (result.state == "SUCCESS") && success) true,
    tests := testResults.mapIdx (fun i result => { case := testCases[i]?, result := result }) }

/-- `types.js`: `FirestoreTestInput` — the `expectation`/`request` part of a
test, attached to the result consumed by `assert`. -/
structure TestInput where
  expectation : String
  request : TestRequest

/-- The `result` value consumed by `assert` (`assert.js`): its `state`,
optional `debugMessages`, and originating `test`. -/
structure AssertInput where
  state : String
  debugMessages : Option (List String)
  test : TestInput

/-- `getTestDescription` (`assert.js` lines 19–22). -/
def getTestDescription (test : TestInput) : String :=
  let e := if test.expectation == "ALLOW" then "to succeed" else "to fail"
  "Expected the " ++ test.request.method ++ " operation " ++ e ++ "."

/-- `assert` (`assert.js` lines 7–17): `none` models the no-op return,
`some msg` models `throw new Error(msg)`.  `if (result.debugMessages)` is
true exactly when the property is present (arrays, including `[]`, are
truthy). -/
def assert (result : AssertInput) : Option String :=
  if result.state == "SUCCESS" then none
  else
    match result.debugMessages with
    | some msgs => some (String.intercalate "\n\n" msgs)
    | none => some (getTestDescription result.test)

/-! ## Theorems -/

/-- C9: the assertion helper is a no-op on a result whose state is `SUCCESS`;
on any other result it raises an error whose message equals the
oracle-supplied `debugMessages` joined by a blank line (`"\n\n"`) when
`debugMessages` is present, and otherwise equals the synthesized sentence
`"Expected the <method> operation to <succeed|fail>."`, with `succeed` chosen
when the failing case's expectation is `ALLOW` and `fail` when it is
`DENY`. -/
theorem assert_message_spec (r : AssertInput) :
    (r.state = "SUCCESS" → assert r = none) ∧
    (r.state ≠ "SUCCESS" → ∀ msgs, r.debugMessages = some msgs →
      assert r = some (String.intercalate "\n\n" msgs)) ∧
    (r.state ≠ "SUCCESS" → r.debugMessages = none → r.test.expectation = "ALLOW" →
      assert r =
        some ("Expected the " ++ r.test.request.method ++ " operation to succeed.")) ∧
    (r.state ≠ "SUCCESS" → r.debugMessages = none → r.test.expectation = "DENY" →
      assert r =
        some ("Expected the " ++ r.test.request.method ++ " operation to fail.")) := by
  have hsucceed : " operation " ++ ("to succeed" ++ ".") = " operation to succeed." := rfl
  have hfail : " operation " ++ ("to fail" ++ ".") = " operation to fail." := rfl
  refine ⟨fun h => ?_, fun h msgs hm => ?_, fun h hm he => ?_, fun h hm he => ?_⟩
  · simp [assert, h]
  · simp [assert, h, hm]
  · simp [assert, h, hm, getTestDescription, he, String.append_assoc, hsucceed]
  · simp [assert, h, hm, getTestDescription, he, String.append_assoc, hfail]

/-- Witness for `assert_message_spec`: a concrete failing `DENY` result with
no debug messages yields the synthesized "to fail" sentence. -/
theorem assert_message_spec_witness :
    assert { state := "FAILURE", debugMessages := none,
             test := { expectation := "DENY",
                       request := { auth := { uid := none }, path := "p", method := "get" } } } =
      some "Expected the get operation to fail." := by
  have h := (assert_message_spec
    { state := "FAILURE", debugMessages := none,
      test := { expectation := "DENY",
                request := { auth := { uid := none }, path := "p", method := "get" } } }).2.2.2
  simpa using h (by simp) rfl rfl

/-- Bool-level form of the `success` fold of `testRules`:
folding `result.state == 'SUCCESS' && success` over the results equals the
conjunction of all states being `SUCCESS` with the initial value. -/
theorem testRules_success_foldl (results : List OracleResult) (init : Bool) :
    results.foldl (fun success result => (result.state == "SUCCESS") && success) init =
      (results.all (fun r => r.state == "SUCCESS") && init) := by
  induction results generalizing init with
  | nil => simp
  | cons r rest ih =>
    simp only [List.foldl_cons, List.all_cons, ih]
    cases h : r.state == "SUCCESS" <;> simp [Bool.and_comm, Bool.and_assoc, Bool.and_left_comm]

/-- C8: the `TestSummary` produced by `testRules` has `success = true` iff
every oracle result has state `SUCCESS`, and (when the oracle returns one
result per submitted case) its `tests` list pairs each submitted case with
its result in submission order. -/
theorem testRules_summary_spec (testCases : List FirestoreTestCase)
    (testResults : List OracleResult)
    (hlen : testCases.length = testResults.length) :
    ((testRulesSummary testCases testResults).success = true ↔
      ∀ r ∈ testResults, r.state = "SUCCESS") ∧
    (testRulesSummary testCases testResults).tests =
      (testCases.zip testResults).map
        (fun p => { case := some p.1, result := p.2 }) := by
  constructor
  · rw [show (testRulesSummary testCases testResults).success =
        testResults.foldl (fun success result => (result.state == "SUCCESS") && success) true
      from rfl]
    rw [testRules_success_foldl]
    simp [List.all_eq_true]
  · rw [show (testRulesSummary testCases testResults).tests =
        testResults.mapIdx (fun i result => { case := testCases[i]?, result := result })
      from rfl]
    apply List.ext_getElem
    · simp [hlen, List.length_zip]
    · intro i h1 h2
      have hi : i < testResults.length := by simpa using h1
      have hic : i < testCases.length := by omega
      simp [List.getElem_mapIdx, List.getElem_zip, List.getElem?_eq_getElem, hic]

/-- Witness for `testRules_summary_spec` at a concrete one-case run. -/
theorem testRules_summary_spec_witness :
    ((testRulesSummary [] []).success = true ↔ ∀ r ∈ ([] : List OracleResult), r.state = "SUCCESS") ∧
      (testRulesSummary [] []).tests = [] := by
  have h := testRules_summary_spec [] [] rfl
  simpa using h

/-! ### Splitting and joining lemmas -/

theorem splitChar_ne_nil (sep : Char) (cs : List Char) : splitChar sep cs ≠ [] := by
  induction cs with
  | nil => simp [splitChar]
  | cons c rest ih =>
    simp only [splitChar]
    split
    · simp
    · split
      · simp
      · simp

theorem not_mem_of_mem_splitChar {sep : Char} {cs : List Char} :
    ∀ {s : List Char}, s ∈ splitChar sep cs → sep ∉ s := by
  induction cs with
  | nil =>
    intro s h
    simp [splitChar] at h
    simp [h]
  | cons c rest ih =>
    intro s h
    simp only [splitChar] at h
    by_cases hc : c = sep
    · simp [hc] at h
      rcases h with h | h
      · simp [h]
      · exact ih h
    · simp [hc] at h
      rcases hr : splitChar sep rest with _ | ⟨t, ts⟩
      · exact absurd hr (splitChar_ne_nil sep rest)
      · rw [hr] at h
        simp only [List.mem_cons] at h
        rcases h with h | h
        · subst h
          intro hmem
          rcases List.mem_cons.mp hmem with h' | h'
          · exact hc h'.symm
          · exact ih (by rw [hr]; exact List.mem_cons_self t ts) h'
        · exact ih (by rw [hr]; exact List.mem_cons_of_mem t h)

theorem splitChar_of_not_mem {sep : Char} {cs : List Char} (h : sep ∉ cs) :
    splitChar sep cs = [cs] := by
  induction cs with
  | nil => simp [splitChar]
  | cons c rest ih =>
    simp only [List.mem_cons, not_or] at h
    have hc : ¬ c = sep := fun hc => h.1 hc.symm
    simp only [splitChar, if_neg hc, ih h.2]

theorem splitChar_append_cons {sep : Char} {s t : List Char} (h : sep ∉ s) :
    splitChar sep (s ++ sep :: t) = s :: splitChar sep t := by
  induction s with
  | nil => simp [splitChar]
  | cons c rest ih =>
    simp only [List.mem_cons, not_or] at h
    have hc : ¬ c = sep := fun hc => h.1 hc.symm
    have ih' := ih h.2
    simp only [List.cons_append, splitChar, if_neg hc, if_pos rfl, List.append_eq, ih']

theorem joinChar_splitChar (sep : Char) (cs : List Char) :
    joinChar sep (splitChar sep cs) = cs := by
  induction cs with
  | nil => simp [splitChar, joinChar]
  | cons c rest ih =>
    simp only [splitChar]
    split
    · rename_i hc
      subst hc
      rcases hr : splitChar c rest with _ | ⟨t, ts⟩
      · exact absurd hr (splitChar_ne_nil c rest)
      · rw [hr] at ih
        simp [joinChar, ih]
    · rcases hr : splitChar sep rest with _ | ⟨t, ts⟩
      · exact absurd hr (splitChar_ne_nil sep rest)
      · rw [hr] at ih
        cases ts with
        | nil => simp_all [joinChar]
        | cons t' ts' => simp_all [joinChar]

theorem splitChar_joinChar {sep : Char} {L : List (List Char)} (hne : L ≠ [])
    (hfree : ∀ s ∈ L, sep ∉ s) : splitChar sep (joinChar sep L) = L := by
  induction L with
  | nil => exact absurd rfl hne
  | cons s rest ih =>
    cases rest with
    | nil =>
      simp only [joinChar]
      exact splitChar_of_not_mem (hfree s (by simp))
    | cons t ts =>
      have : joinChar sep (s :: t :: ts) = s ++ sep :: joinChar sep (t :: ts) := rfl
      rw [this, splitChar_append_cons (hfree s (by simp))]
      rw [ih (by simp) (fun u hu => hfree u (List.mem_cons_of_mem s hu))]

theorem joinChar_append_singleton {sep : Char} {L : List (List Char)} (hne : L ≠ [])
    (s : List Char) : joinChar sep (L ++ [s]) = joinChar sep L ++ sep :: s := by
  induction L with
  | nil => exact absurd rfl hne
  | cons t rest ih =>
    cases rest with
    | nil => simp [joinChar]
    | cons u us =>
      have h1 : joinChar sep ((t :: u :: us) ++ [s]) =
          t ++ sep :: joinChar sep ((u :: us) ++ [s]) := rfl
      have h2 : joinChar sep (t :: u :: us) = t ++ sep :: joinChar sep (u :: us) := rfl
      rw [h1, h2, ih (by simp)]
      simp

/-! ### Path segment lemmas -/

theorem numSegs_pos (p : String) : 1 ≤ numSegs p := by
  have h := splitChar_ne_nil '/' p.data
  rcases hr : splitChar '/' p.data with _ | ⟨s, ss⟩
  · exact absurd hr h
  · simp [numSegs, segments, hr]

theorem segments_ne_nil (p : String) : segments p ≠ [] :=
  splitChar_ne_nil '/' p.data

theorem dirname_of_single {p : String} (h : numSegs p ≤ 1) : dirname p = "." := by
  simp [dirname, numSegs] at h ⊢
  omega

theorem segments_dirname {p : String} (h : 2 ≤ numSegs p) :
    segments (dirname p) = (segments p).dropLast := by
  have hgt : ¬ (segments p).length ≤ 1 := by simp [numSegs] at h; omega
  have hd : dirname p = String.mk (joinChar '/' (segments p).dropLast) := by
    simp [dirname, hgt]
  rw [hd]
  show splitChar '/' (joinChar '/' (segments p).dropLast) = (segments p).dropLast
  apply splitChar_joinChar
  · have : (segments p).dropLast.length = (segments p).length - 1 := by simp
    intro hnil
    rw [hnil] at this
    simp [numSegs] at h
    simp at this
    omega
  · intro s hs
    exact not_mem_of_mem_splitChar (List.mem_of_mem_dropLast hs)

theorem numSegs_dirname {p : String} (h : 2 ≤ numSegs p) :
    numSegs (dirname p) = numSegs p - 1 := by
  simp [numSegs, segments_dirname h]

theorem dirname_ne_dot_numSegs {p : String} (h : dirname p ≠ ".") : 2 ≤ numSegs p := by
  by_contra hlt
  exact h (dirname_of_single (by omega))

/-- For a multi-segment path, `dirname p ++ "/" ++ basename p` reassembles
the path. -/
theorem dirname_append_basename {p : String} (h : 2 ≤ numSegs p) :
    dirname p ++ "/" ++ basename p = p := by
  have hgt : ¬ (segments p).length ≤ 1 := by simp [numSegs] at h; omega
  have hne : (segments p).dropLast ≠ [] := by
    intro hnil
    have : (segments p).dropLast.length = (segments p).length - 1 := by simp
    rw [hnil] at this
    simp [numSegs] at h
    simp at this
    omega
  have hsplit : (segments p).dropLast ++ [(segments p).getLastD []] = segments p := by
    rcases hr : segments p with _ | ⟨s, ss⟩
    · exact absurd hr (segments_ne_nil p)
    · rw [List.getLastD_eq_getLast?, List.getLast?_eq_getLast (s :: ss) (by simp)]
      simp [List.dropLast_append_getLast]
  apply String.ext
  have hdata : (dirname p ++ "/" ++ basename p).data =
      (dirname p).data ++ '/' :: (basename p).data := by
    simp [String.data_append]
  rw [hdata]
  have hd : (dirname p).data = joinChar '/' (segments p).dropLast := by
    simp [dirname, hgt]
  have hb : (basename p).data = (segments p).getLastD [] := rfl
  have hp : p.data = joinChar '/' (segments p) := (joinChar_splitChar '/' p.data).symm
  rw [hd, hb, hp]
  conv_rhs => rw [← hsplit]
  rw [joinChar_append_singleton hne]

/-! ### Fuel monotonicity and sufficiency for path resolution -/

theorem resolveF_mono : ∀ fuel fuel', fuel ≤ fuel' →
    (∀ db p C, getCollectionF fuel db p = some C → getCollectionF fuel' db p = some C) ∧
    (∀ db p r, getDocumentF fuel db p = some r → getDocumentF fuel' db p = some r) := by
  intro fuel
  induction fuel with
  | zero =>
    intro fuel' _
    exact ⟨fun db p C h => by simp [getCollectionF] at h,
           fun db p r h => by simp [getDocumentF] at h⟩
  | succ fuel ih =>
    intro fuel' hle
    obtain ⟨f', rfl⟩ : ∃ f', fuel' = f' + 1 := ⟨fuel' - 1, by omega⟩
    have ihf := ih f' (by omega)
    constructor
    · intro db p C h
      simp only [getCollectionF] at h ⊢
      by_cases hdot : dirname p = "."
      · simpa [hdot] using h
      · rw [if_neg hdot] at h ⊢
        rcases hr : getDocumentF fuel db (dirname p) with _ | r
        · rw [hr] at h
          exact absurd h (by simp)
        · rw [ihf.2 db (dirname p) r hr]
          rw [hr] at h
          exact h
    · intro db p r h
      simp only [getDocumentF] at h ⊢
      rcases hr : getCollectionF fuel db (dirname p) with _ | C
      · rw [hr] at h
        exact absurd h (by simp)
      · rw [ihf.1 db (dirname p) C hr]
        rw [hr] at h
        exact h

theorem resolveF_sufficient : ∀ fuel,
    (∀ db p, numSegs p + 1 ≤ fuel → (getCollectionF fuel db p).isSome) ∧
    (∀ db p, numSegs p + 1 ≤ fuel → (getDocumentF fuel db p).isSome) := by
  intro fuel
  induction fuel with
  | zero =>
    exact ⟨fun db p h => absurd h (by have := numSegs_pos p; omega),
           fun db p h => absurd h (by have := numSegs_pos p; omega)⟩
  | succ fuel ih =>
    constructor
    · intro db p h
      simp only [getCollectionF]
      by_cases hdot : dirname p = "."
      · simp [hdot]
      · rw [if_neg hdot]
        have h2 : 2 ≤ numSegs p := dirname_ne_dot_numSegs hdot
        have hf : numSegs (dirname p) + 1 ≤ fuel := by
          rw [numSegs_dirname h2]
          omega
        have hs := ih.2 db (dirname p) hf
        rcases hr : getDocumentF fuel db (dirname p) with _ | r
        · rw [hr] at hs
          simp at hs
        · rcases r with _ | d <;> simp [hr]
    · intro db p h
      simp only [getDocumentF]
      by_cases h1 : numSegs p ≤ 1
      · have hdot : dirname p = "." := dirname_of_single h1
        rw [hdot]
        have hfuel : 1 ≤ fuel := by have := numSegs_pos p; omega
        obtain ⟨f', rfl⟩ : ∃ f', fuel = f' + 1 := ⟨fuel - 1, by omega⟩
        have hdd : dirname "." = "." := rfl
        simp [getCollectionF, hdd]
      · have h2 : 2 ≤ numSegs p := by omega
        have hf : numSegs (dirname p) + 1 ≤ fuel := by
          rw [numSegs_dirname h2]
          omega
        have hs := ih.1 db (dirname p) hf
        rcases hr : getCollectionF fuel db (dirname p) with _ | C
        · rw [hr] at hs
          simp at hs
        · simp [hr]

/-- The canonical fuel `numSegs p + 1` computes the wrapper's value. -/
theorem getCollectionF_spec (db : Collections) (p : String) :
    getCollectionF (numSegs p + 1) db p = some (getCollection db p) := by
  have hs := (resolveF_sufficient (numSegs p + 1)).1 db p le_rfl
  rcases hr : getCollectionF (numSegs p + 1) db p with _ | C
  · rw [hr] at hs
    simp at hs
  · simp [getCollection, hr]

/-- The canonical fuel `numSegs p + 1` computes the wrapper's value. -/
theorem getDocumentF_spec (db : Collections) (p : String) :
    getDocumentF (numSegs p + 1) db p = some (getDocument db p) := by
  have hs := (resolveF_sufficient (numSegs p + 1)).2 db p le_rfl
  rcases hr : getDocumentF (numSegs p + 1) db p with _ | r
  · rw [hr] at hs
    simp at hs
  · simp [getDocument, hr]

/-- Any fuel at least `numSegs p + 1` computes the wrapper's value. -/
theorem getCollectionF_stable {fuel : Nat} {p : String} (db : Collections)
    (h : numSegs p + 1 ≤ fuel) :
    getCollectionF fuel db p = some (getCollection db p) :=
  (resolveF_mono (numSegs p + 1) fuel h).1 db p _ (getCollectionF_spec db p)

/-- Any fuel at least `numSegs p + 1` computes the wrapper's value. -/
theorem getDocumentF_stable {fuel : Nat} {p : String} (db : Collections)
    (h : numSegs p + 1 ≤ fuel) :
    getDocumentF fuel db p = some (getDocument db p) :=
  (resolveF_mono (numSegs p + 1) fuel h).2 db p _ (getDocumentF_spec db p)

/-- Well-formedness of a relative path as stated by the claim: a non-empty
slash-separated sequence of non-empty segments (so no leading or trailing
slash and no empty segment). -/
def wellFormedPath (p : String) : Bool :=
  (segments p).all (fun s => !s.isEmpty)

/-- C10: for every well-formed relative path the mutually recursive
`getCollection` / `getDocument` terminate — each recursive call drops the
last path segment, so recursion depth is bounded by the segment count: fuel
`numSegs p + 1` already yields a result, every larger fuel yields the same
result, and the fuelless wrappers are that value. -/
theorem resolution_terminates (db : Collections) (p : String)
    (hwf : wellFormedPath p = true) :
    (getDocumentF (numSegs p + 1) db p).isSome ∧
    (getCollectionF (numSegs p + 1) db p).isSome ∧
    (∀ fuel, numSegs p + 1 ≤ fuel →
      getDocumentF fuel db p = getDocumentF (numSegs p + 1) db p ∧
      getCollectionF fuel db p = getCollectionF (numSegs p + 1) db p) ∧
    getDocumentF (numSegs p + 1) db p = some (getDocument db p) ∧
    getCollectionF (numSegs p + 1) db p = some (getCollection db p) := by
  refine ⟨(resolveF_sufficient _).2 db p le_rfl, (resolveF_sufficient _).1 db p le_rfl,
    fun fuel hf => ?_, getDocumentF_spec db p, getCollectionF_spec db p⟩
  rw [getDocumentF_stable db hf, getCollectionF_stable db hf,
    getDocumentF_spec db p, getCollectionF_spec db p]
  exact ⟨rfl, rfl⟩

/-- A sample dataset, following the fixture shape of the repository's README
(`users/userA` with a nested `favorites` sub-collection, and `users/userB`). -/
def sampleDb : Collections :=
  [("users",
    [ .mk "userA" [("name", .str "John Doe")]
        [("favorites", [.mk "fav1" [("color", .str "blue")] []])],
      .mk "userB" [("name", .str "Jane Doe")] [] ])]

/-- Witness for `resolution_terminates` at the concrete path
`"users/userA"`. -/
theorem resolution_terminates_witness :
    (getDocumentF (numSegs "users/userA" + 1) sampleDb "users/userA").isSome := by
  exact (resolution_terminates sampleDb "users/userA" (by decide)).1

/-! ### The after-mock fold and dotted-path assignment -/

/-- Accumulator lemma for the fold of `createBatchAfterFunctionMocks`. -/
theorem createBatchAfterFunctionMocks_acc :
    ∀ (batch : List BatchOperation) (db : Collections) (acc : List FunctionMock),
      batch.foldl
        (fun acc operation =>
          let step := createBatchAfterFunctionMockStep acc.2 operation
          (acc.1 ++ [step.1], step.2)) (acc, db) =
      (acc ++ (createBatchAfterFunctionMocks db batch).1,
       (createBatchAfterFunctionMocks db batch).2) := by
  intro batch
  induction batch with
  | nil =>
    intro db acc
    simp [createBatchAfterFunctionMocks]
  | cons op ops ih =>
    intro db acc
    simp only [createBatchAfterFunctionMocks, List.foldl_cons]
    rw [ih ((createBatchAfterFunctionMockStep db op).2) ([] ++ [(createBatchAfterFunctionMockStep db op).1]),
      ih ((createBatchAfterFunctionMockStep db op).2) (acc ++ [(createBatchAfterFunctionMockStep db op).1])]
    simp

/-- `createBatchAfterFunctionMocks` processes a batch head first: the first
mock comes from the head operation against the incoming dataset, and the rest
from the tail against the (possibly mutated) dataset the head left behind. -/
theorem createBatchAfterFunctionMocks_cons (db : Collections) (op : BatchOperation)
    (ops : List BatchOperation) :
    createBatchAfterFunctionMocks db (op :: ops) =
      ((createBatchAfterFunctionMockStep db op).1 ::
        (createBatchAfterFunctionMocks (createBatchAfterFunctionMockStep db op).2 ops).1,
       (createBatchAfterFunctionMocks (createBatchAfterFunctionMockStep db op).2 ops).2) := by
  have h := createBatchAfterFunctionMocks_acc ops
    ((createBatchAfterFunctionMockStep db op).2) [(createBatchAfterFunctionMockStep db op).1]
  show (op :: ops).foldl _ ([], db) = _
  rw [List.foldl_cons]
  show List.foldl _
    ([(createBatchAfterFunctionMockStep db op).1], (createBatchAfterFunctionMockStep db op).2)
    ops = _
  rw [h]
  simp

/-- The first dotted segment of an update key: the top-level field the
`object-set` assignment touches. -/
def firstSeg (key : String) : String :=
  String.mk ((splitChar '.' key.data).headD [])

theorem assocFind_setKey_ne {fields : Fields} {k' k : String} (v : Value)
    (h : k' ≠ k) : assocFind (setKey fields k' v) k = assocFind fields k := by
  induction fields with
  | nil => simp [setKey, assocFind, h]
  | cons kv rest ih =>
    obtain ⟨a, b⟩ := kv
    by_cases ha : a = k'
    · subst ha
      simp only [setKey, if_pos rfl]
      simp [assocFind, h]
    · simp only [setKey, if_neg ha]
      simp only [assocFind, List.find?] at ih ⊢
      by_cases hak : (a == k) = true
      · simp [hak]
      · simp only [hak]
        exact ih

theorem assocFind_setPathSegs_ne {k : String} (v : Value) :
    ∀ (segs : List String) (fields : Fields), segs ≠ [] → segs.headD "" ≠ k →
      assocFind (setPathSegs fields segs v) k = assocFind fields k := by
  intro segs
  match segs with
  | [] => intro fields hne _; exact absurd rfl hne
  | [k'] =>
    intro fields _ hh
    simp only [List.headD_cons] at hh
    simp only [setPathSegs]
    exact assocFind_setKey_ne v hh
  | k' :: s :: rest =>
    intro fields _ hh
    simp only [List.headD_cons] at hh
    simp only [setPathSegs]
    exact assocFind_setKey_ne _ hh

theorem assocFind_objectSet_ne {fields : Fields} {key k : String} (v : Value)
    (h : firstSeg key ≠ k) : assocFind (objectSet fields key v) k = assocFind fields k := by
  unfold objectSet
  apply assocFind_setPathSegs_ne
  · simp [splitChar_ne_nil]
  · rcases hr : splitChar '.' key.data with _ | ⟨s, ss⟩
    · exact absurd hr (splitChar_ne_nil '.' key.data)
    · simp only [List.map_cons, List.headD_cons]
      unfold firstSeg at h
      rw [hr] at h
      simpa using h

/-- Keys whose top-level segment is not mentioned by any update key keep
their prior value through `applyUpdate`. -/
theorem applyUpdate_preserves_unmentioned {k : String} :
    ∀ (data : Fields) (fields : Fields), (∀ kv ∈ data, firstSeg kv.1 ≠ k) →
      assocFind (applyUpdate fields data) k = assocFind fields k := by
  intro data
  induction data with
  | nil => intro fields _; simp [applyUpdate]
  | cons kv rest ih =>
    intro fields h
    show assocFind (applyUpdate (objectSet fields kv.1 kv.2) rest) k = _
    rw [ih _ (fun kv' h' => h kv' (List.mem_cons_of_mem kv h'))]
    exact assocFind_objectSet_ne kv.2 (h kv (List.mem_cons_self kv rest))

/-- C2: the after-state emitted as each operation's `getAfter` exact-match
mock — the batch is processed operation by operation (first conjunct), and
for each operation against the dataset it sees: a `set` produces the
operation's data verbatim (no merge), a `delete` produces absent (`null`),
and an `update` produces the prior fields (the empty mapping when the
document does not exist) with each payload key applied by dotted-path
assignment; keys not mentioned keep their prior values, and the two worked
examples of the dotted-path merge hold. -/
theorem afterMocks_after_state :
    (∀ (db : Collections) (op : BatchOperation) (ops : List BatchOperation),
      (createBatchAfterFunctionMocks db (op :: ops)).1 =
        (createBatchAfterFunctionMockStep db op).1 ::
          (createBatchAfterFunctionMocks (createBatchAfterFunctionMockStep db op).2 ops).1) ∧
    (∀ (db : Collections) (p : String) (flds : Fields),
      (createBatchAfterFunctionMockStep db (.set p (.obj flds))).1.value =
        .obj [("data", .obj flds)]) ∧
    (∀ (db : Collections) (p : String),
      (createBatchAfterFunctionMockStep db (.delete p)).1.value = .null) ∧
    (∀ (db : Collections) (p : String) (data : Fields),
      (createBatchAfterFunctionMockStep db (.update p data)).1.value =
        .obj [("data", .obj (applyUpdate
          (match getDocument db p with
           | some d => d.fields
           | none => []) data))]) ∧
    (∀ (data fields : Fields) (k : String), (∀ kv ∈ data, firstSeg kv.1 ≠ k) →
      assocFind (applyUpdate fields data) k = assocFind fields k) ∧
    applyUpdate [] [("a.b", .num 1)] = [("a", .obj [("b", .num 1)])] ∧
    applyUpdate [("a", .obj [("b", .num 1), ("c", .num 2)])] [("a.b", .num 9)] =
      [("a", .obj [("b", .num 9), ("c", .num 2)])] := by
  refine ⟨fun db op ops => ?_, fun db p flds => rfl, fun db p => rfl,
    fun db p data => ?_, fun data fields k h => applyUpdate_preserves_unmentioned data fields h,
    rfl, rfl⟩
  · rw [createBatchAfterFunctionMocks_cons]
  · rcases hd : getDocument db p with _ | d <;>
      simp [createBatchAfterFunctionMockStep, BatchOperation.document, createFunctionMock,
        hd, Value.truthy]

/-- Witness for `afterMocks_after_state`: the unmentioned-key clause at a
concrete update (`{"a.b": 9}` leaves top-level key `"c"` untouched). -/
theorem afterMocks_after_state_witness :
    assocFind (applyUpdate [("c", Value.num 7)] [("a.b", Value.num 9)]) "c" =
      assocFind [("c", Value.num 7)] "c" := by
  exact afterMocks_after_state.2.2.2.2.1 [("a.b", Value.num 9)] [("c", Value.num 7)] "c"
    (by intro kv hkv; simp at hkv; subst hkv; decide)

/-- C1 (failing input): building the test cases for a commit is *not*
observationally pure — an `update` operation on an existing document mutates
the Database's stored collections value.  On the dataset
`{users: [{key: "a", fields: {x: 1}}]}`, translating the one-operation batch
`[update("users/a", {y: 2})]` leaves the stored fields of `users/a` as
`{x: 1, y: 2}`: the `object-set` calls in `createBatchAfterFunctionMocks`
write through the alias `after = doc.fields`. -/
theorem createCommitTest_mutates_dataset :
    (createCommitTest [("users", [Doc.mk "a" [("x", Value.num 1)] []])] true ⟨none⟩
        [BatchOperation.update "users/a" [("y", Value.num 2)]]).2 =
      [("users", [Doc.mk "a" [("x", Value.num 1), ("y", Value.num 2)] []])] ∧
    [("users", [Doc.mk "a" [("x", Value.num 1), ("y", Value.num 2)] []])] ≠
      ([("users", [Doc.mk "a" [("x", Value.num 1)] []])] : Collections) := by
  constructor
  · rfl
  · simp

/-! ### The document count and reference enumeration (C6) -/

mutual

/-- The number of documents across all nesting levels, per collection map. -/
def countDocumentsColls : Collections → Nat
  | [] => 0
  | (_, coll) :: rest => countDocumentsColl coll + countDocumentsColls rest

/-- The number of documents across all nesting levels, per collection. -/
def countDocumentsColl : Collection → Nat
  | [] => 0
  | .mk _ _ colls :: rest => 1 + countDocumentsColls colls + countDocumentsColl rest

end

/-- The number of documents of a dataset across all nesting levels. -/
def countDocuments (db : Collections) : Nat :=
  countDocumentsColls db

mutual

/-- Reference enumeration following the spec's words: every document under
every collection, with its path the slash-join of its ancestor chain
(parent path, collection name, document key), in preorder. -/
def specDocEntriesColls : Collections → String → List Entry
  | [], _ => []
  | (collectionName, coll) :: rest, parentPath =>
    specDocEntriesColl coll (joinPath parentPath collectionName) ++
      specDocEntriesColls rest parentPath

/-- Reference enumeration of one collection: each document's entry followed
by its recursively enumerated sub-collections. -/
def specDocEntriesColl : Collection → String → List Entry
  | [], _ => []
  | .mk key fields colls :: rest, collectionPath =>
    { path := joinPath collectionPath key, doc := .mk key fields colls } ::
      (specDocEntriesColls colls (joinPath collectionPath key) ++
        specDocEntriesColl rest collectionPath)

end

/-- Reference enumeration of the whole dataset from the root. -/
def specDocEntries (db : Collections) : List Entry :=
  specDocEntriesColls db ""

mutual

/-- `getDocumentsColls` is a permutation of the reference enumeration
appended to its accumulator. -/
theorem getDocumentsColls_perm :
    ∀ (colls : Collections) (pp : String) (acc : List Entry),
      (getDocumentsColls colls pp acc).Perm (acc ++ specDocEntriesColls colls pp)
  | [], pp, acc => by
    rw [getDocumentsColls, specDocEntriesColls]
    simp
  | (collectionName, coll) :: rest, pp, acc => by
    rw [getDocumentsColls, specDocEntriesColls]
    refine (getDocumentsColls_perm rest pp _).trans ?_
    have h1 := getDocumentsDocs_perm coll (joinPath pp collectionName) []
    simp only [List.nil_append] at h1
    simp only [List.append_assoc]
    exact List.Perm.append_left acc (h1.append_right _)

/-- `getDocumentsDocs` is a permutation of the reference enumeration appended
to its accumulator. -/
theorem getDocumentsDocs_perm :
    ∀ (docs : Collection) (cp : String) (acc : List Entry),
      (getDocumentsDocs docs cp acc).Perm (acc ++ specDocEntriesColl docs cp)
  | [], cp, acc => by
    rw [getDocumentsDocs, specDocEntriesColl]
    simp
  | .mk key fields colls :: rest, cp, acc => by
    rw [getDocumentsDocs, specDocEntriesColl]
    refine (getDocumentsDocs_perm rest cp _).trans ?_
    have h1 := getDocumentsColls_perm colls (joinPath cp key) []
    simp only [List.nil_append] at h1
    simp only [List.append_assoc, List.cons_append, List.nil_append]
    refine List.Perm.trans ?_ List.perm_middle.symm
    exact List.Perm.cons _ (List.Perm.append_left acc (h1.append_right _))

end

mutual

/-- The reference enumeration has one entry per document. -/
theorem specDocEntriesColls_length :
    ∀ (colls : Collections) (pp : String),
      (specDocEntriesColls colls pp).length = countDocumentsColls colls
  | [], _ => by rw [specDocEntriesColls, countDocumentsColls]; rfl
  | (collectionName, coll) :: rest, pp => by
    rw [specDocEntriesColls, countDocumentsColls]
    simp [specDocEntriesColl_length coll, specDocEntriesColls_length rest]

/-- The reference enumeration has one entry per document. -/
theorem specDocEntriesColl_length :
    ∀ (docs : Collection) (cp : String),
      (specDocEntriesColl docs cp).length = countDocumentsColl docs
  | [], _ => by rw [specDocEntriesColl, countDocumentsColl]; rfl
  | .mk key fields colls :: rest, cp => by
    rw [specDocEntriesColl, countDocumentsColl]
    simp [specDocEntriesColls_length colls, specDocEntriesColl_length rest]
    omega

end

/-- C6: with default arguments `getDocuments` enumerates each document of the
tree exactly once — it is a permutation of the reference enumeration (whose
entries pair every document with the slash-join of its ancestor chain), and
its total length is the number of documents across all nesting levels. -/
theorem getDocuments_complete (db : Collections) :
    (getDocuments db "").Perm (specDocEntries db) ∧
    (getDocuments db "").length = countDocuments db := by
  have hp := getDocumentsColls_perm db "" []
  simp only [List.nil_append] at hp
  refine ⟨hp, ?_⟩
  rw [getDocuments, hp.length_eq]
  exact specDocEntriesColls_length db ""

/-! ### The shape of `createMockFunctions` (C5) -/

/-- Shared helper: the enumeration length equals the document count. -/
theorem getDocuments_length (db : Collections) :
    (getDocuments db "").length = countDocuments db := by
  have hp := getDocumentsColls_perm db "" []
  simp only [List.nil_append] at hp
  rw [getDocuments, hp.length_eq]
  exact specDocEntriesColls_length db ""

/-- Appending a block per element from the left is a `flatMap`. -/
theorem foldl_append_blocks {α β : Type} (g : α → List β) :
    ∀ (l : List α) (acc : List β),
      l.foldl (fun fns e => fns ++ g e) acc = acc ++ l.flatMap g := by
  intro l
  induction l with
  | nil => intro acc; simp
  | cons e rest ih =>
    intro acc
    simp only [List.foldl_cons, List.flatMap_cons, ih]
    simp

/-- C5: `createMockFunctions` returns exactly the three wildcard defaults
(`get` → `null`, `getAfter` → `null`, `exists` → `false`, each matching any
argument) followed by, for each enumerated document in enumeration order, an
exact-match `get` mock returning `{data: fields}` and an exact-match `exists`
mock returning `true`, each keyed by the prefixed document path — `3 + 2·N`
mocks for a dataset with `N` documents. -/
theorem createMockFunctions_shape (db : Collections) :
    createMockFunctions db =
      [ { function := "get", args := [.anyValue], value := .null },
        { function := "getAfter", args := [.anyValue], value := .null },
        { function := "exists", args := [.anyValue], value := .bool false } ] ++
        (getDocuments db "").flatMap (fun e =>
          [ createFunctionMock "get" (createDocumentPath e.path)
              (.obj [("data", .obj e.doc.fields)]),
            createFunctionMock "exists" (createDocumentPath e.path) (.bool true) ]) ∧
    (createMockFunctions db).length = 3 + 2 * countDocuments db := by
  have hshape : createMockFunctions db =
      [ { function := "get", args := [.anyValue], value := .null },
        { function := "getAfter", args := [.anyValue], value := .null },
        { function := "exists", args := [.anyValue], value := .bool false } ] ++
        (getDocuments db "").flatMap (fun e =>
          [ createFunctionMock "get" (createDocumentPath e.path)
              (.obj [("data", .obj e.doc.fields)]),
            createFunctionMock "exists" (createDocumentPath e.path) (.bool true) ]) := by
    show _ ++ (getDocuments db "").foldl _ [] = _
    rw [foldl_append_blocks]
    simp
  refine ⟨hshape, ?_⟩
  rw [hshape]
  have hlen : ((getDocuments db "").flatMap (fun e =>
      [ createFunctionMock "get" (createDocumentPath e.path)
          (.obj [("data", .obj e.doc.fields)]),
        createFunctionMock "exists" (createDocumentPath e.path) (.bool true) ])).length =
      2 * (getDocuments db "").length := by
    induction getDocuments db "" with
    | nil => simp
    | cons e rest ih =>
      simp only [List.flatMap_cons, List.length_append, List.length_cons, ih]
      simp
      omega
  rw [List.length_append, hlen, getDocuments_length]
  rfl

/-! ### One case per operation with shared mocks (C4) -/

/-- C4: `createCommitTest` produces exactly one test case per batch
operation; every case carries the same `functionMocks` list — the base mocks
concatenated with the after-mocks for the entire batch — and the after-mocks
are one `getAfter` exact-match mock per operation of the batch, in batch
order, keyed by the prefixed document path. -/
theorem createCommitTest_case_per_operation (db : Collections) (allow : Bool) (auth : Auth)
    (batch : List BatchOperation) :
    (createCommitTest db allow auth batch).1.length = batch.length ∧
    (createCommitTest db allow auth batch).1.map (fun c => c.functionMocks) =
      List.replicate batch.length
        (createMockFunctions db ++ (createBatchAfterFunctionMocks db batch).1) ∧
    List.Forall₂ (fun (m : FunctionMock) (op : BatchOperation) =>
      m.function = "getAfter" ∧ m.args = [.exactValue (createDocumentPath op.document)])
      (createBatchAfterFunctionMocks db batch).1 batch := by
  refine ⟨?_, ?_, ?_⟩
  · simp [createCommitTest]
  · show (batch.map _).map _ = _
    rw [List.map_map]
    show List.map (fun _ => createMockFunctions db ++ (createBatchAfterFunctionMocks db batch).1)
        batch = List.replicate batch.length
          (createMockFunctions db ++ (createBatchAfterFunctionMocks db batch).1)
    exact List.map_const' batch _
  · induction batch generalizing db with
    | nil => exact List.Forall₂.nil
    | cons op ops ih =>
      rw [show (createBatchAfterFunctionMocks db (op :: ops)).1 =
          (createBatchAfterFunctionMockStep db op).1 ::
            (createBatchAfterFunctionMocks (createBatchAfterFunctionMockStep db op).2 ops).1
        from congrArg Prod.fst (createBatchAfterFunctionMocks_cons db op ops)]
      exact List.Forall₂.cons ⟨rfl, rfl⟩ (ih _)

/-! ### Shape preservation: field mutation does not change existence (C3) -/

mutual

/-- Two collection maps with the same structure (names, keys, nesting),
allowing the documents' `fields` to differ. -/
inductive SameShapeColls : Collections → Collections → Prop where
  | nil : SameShapeColls [] []
  | cons (n : String) {c c' : Collection} {r r' : Collections} :
      SameShapeColl c c' → SameShapeColls r r' →
      SameShapeColls ((n, c) :: r) ((n, c') :: r')

/-- Two collections with the same structure, allowing fields to differ. -/
inductive SameShapeColl : Collection → Collection → Prop where
  | nil : SameShapeColl [] []
  | cons (k : String) (f f' : Fields) {cs cs' : List (String × Collection)}
      {r r' : Collection} :
      SameShapeColls cs cs' → SameShapeColl r r' →
      SameShapeColl (.mk k f cs :: r) (.mk k f' cs' :: r')

end

/-- Two documents with equal key and same-shape sub-collections. -/
def docShapeRel (d d' : Doc) : Prop :=
  d.key = d'.key ∧ SameShapeColls d.collections d'.collections

theorem sameShapeColl_cons {d d' : Doc} {r r' : Collection}
    (hd : docShapeRel d d') (hr : SameShapeColl r r') :
    SameShapeColl (d :: r) (d' :: r') := by
  obtain ⟨k, f, cs⟩ := d
  obtain ⟨k', f', cs'⟩ := d'
  obtain ⟨hk, hcs⟩ := hd
  cases (show k = k' from hk)
  exact .cons k f f' hcs hr

mutual

theorem sameShapeColls_refl : ∀ colls : Collections, SameShapeColls colls colls
  | [] => .nil
  | (n, c) :: r => .cons n (sameShapeColl_refl c) (sameShapeColls_refl r)

theorem sameShapeColl_refl : ∀ coll : Collection, SameShapeColl coll coll
  | [] => .nil
  | .mk k f cs :: r => .cons k f f (sameShapeColls_refl cs) (sameShapeColl_refl r)

end

mutual

theorem sameShapeColls_trans :
    ∀ {a b c : Collections}, SameShapeColls a b → SameShapeColls b c → SameShapeColls a c
  | _, _, _, .nil, h => h
  | _, _, _, .cons n h1 h2, .cons _ g1 g2 =>
    .cons n (sameShapeColl_trans h1 g1) (sameShapeColls_trans h2 g2)

theorem sameShapeColl_trans :
    ∀ {a b c : Collection}, SameShapeColl a b → SameShapeColl b c → SameShapeColl a c
  | _, _, _, .nil, h => h
  | _, _, _, .cons k f f' h1 h2, .cons _ _ f'' g1 g2 =>
    .cons k f f'' (sameShapeColls_trans h1 g1) (sameShapeColl_trans h2 g2)

end

/-- `replaceFirst` with a shape-preserving document transformer preserves a
collection's shape. -/
theorem replaceFirst_shape {pred : Doc → Bool} {f : Doc → Doc}
    (hf : ∀ d, docShapeRel d (f d)) :
    ∀ C : Collection, SameShapeColl C (replaceFirst pred f C) := by
  intro C
  induction C with
  | nil => exact .nil
  | cons d r ih =>
    show SameShapeColl (d :: r) (if pred d then f d :: r else d :: replaceFirst pred f r)
    by_cases hp : pred d
    · rw [if_pos hp]
      exact sameShapeColl_cons (hf d) (sameShapeColl_refl r)
    · rw [if_neg hp]
      exact sameShapeColl_cons ⟨rfl, sameShapeColls_refl _⟩ ih

/-- `assocModify` with a shape-preserving collection transformer preserves
the collection map's shape. -/
theorem assocModify_shape {g : Collection → Collection}
    (hg : ∀ C, SameShapeColl C (g C)) (name : String) :
    ∀ colls : Collections, SameShapeColls colls (assocModify colls name g) := by
  intro colls
  induction colls with
  | nil => exact .nil
  | cons kv r ih =>
    obtain ⟨n, c⟩ := kv
    show SameShapeColls ((n, c) :: r)
      (if (n == name) = true then (n, g c) :: r
       else (n, c) :: replaceFirst (fun kv => kv.1 == name) (fun kv => (kv.1, g kv.2)) r)
    by_cases hp : (n == name) = true
    · rw [if_pos hp]
      exact .cons n (hg c) (sameShapeColls_refl r)
    · rw [if_neg hp]
      exact .cons n (sameShapeColl_refl c) ih

/-- The fuel-indexed modification functions preserve the dataset's shape
whenever their transformer does. -/
theorem modifyF_shape : ∀ fuel : Nat,
    (∀ (db : Collections) (p : String) (f : Doc → Doc), (∀ d, docShapeRel d (f d)) →
      SameShapeColls db (modifyDocF fuel db p f)) ∧
    (∀ (db : Collections) (p : String) (g : Collection → Collection),
      (∀ C, SameShapeColl C (g C)) → SameShapeColls db (modifyCollF fuel db p g)) := by
  intro fuel
  induction fuel with
  | zero =>
    exact ⟨fun db p f _ => sameShapeColls_refl db, fun db p g _ => sameShapeColls_refl db⟩
  | succ fuel ih =>
    constructor
    · intro db p f hf
      show SameShapeColls db (modifyCollF fuel db (dirname p) _)
      exact ih.2 db (dirname p) _ (fun C => replaceFirst_shape hf C)
    · intro db p g hg
      show SameShapeColls db
        (if dirname p = "." then assocModify db (basename p) g
         else modifyDocF fuel db (dirname p) _)
      by_cases hp : dirname p = "."
      · rw [if_pos hp]
        exact assocModify_shape hg (basename p) db
      · rw [if_neg hp]
        refine ih.1 db (dirname p) _ (fun d => ?_)
        exact ⟨rfl, assocModify_shape hg (basename p) d.collections⟩

/-- `setDocFields` preserves the dataset's shape. -/
theorem setDocFields_shape (db : Collections) (p : String) (flds : Fields) :
    SameShapeColls db (setDocFields db p flds) :=
  (modifyF_shape (numSegs p + 1)).1 db p _ (fun _ => ⟨rfl, sameShapeColls_refl _⟩)

theorem lookupOrNil_cons (n name : String) (c : Collection) (r : Collections) :
    lookupOrNil ((n, c) :: r) name = if n == name then c else lookupOrNil r name := by
  simp only [lookupOrNil, assocFind, List.find?]
  cases hn : n == name <;> simp [hn]

/-- `lookupOrNil` respects shape equality. -/
theorem lookupOrNil_shape :
    ∀ {db db' : Collections}, SameShapeColls db db' →
      ∀ name, SameShapeColl (lookupOrNil db name) (lookupOrNil db' name)
  | _, _, .nil, _ => .nil
  | _, _, .cons n hc hr, name => by
    rw [lookupOrNil_cons, lookupOrNil_cons]
    by_cases hn : (n == name) = true
    · rw [if_pos hn, if_pos hn]
      exact hc
    · rw [if_neg hn, if_neg hn]
      exact lookupOrNil_shape hr name

/-- `find?` by key respects shape equality. -/
theorem find?_key_shape :
    ∀ {C C' : Collection}, SameShapeColl C C' → ∀ docId : String,
      Option.Rel docShapeRel (C.find? (fun doc => doc.key == docId))
        (C'.find? (fun doc => doc.key == docId))
  | _, _, .nil, _ => .none
  | _, _, .cons k f f' hcs hr, docId => by
    rename_i cs cs' r r'
    show Option.Rel _ ((Doc.mk k f cs :: r).find? (fun doc => doc.key == docId))
      ((Doc.mk k f' cs' :: r').find? (fun doc => doc.key == docId))
    simp only [List.find?, Doc.key]
    cases hk : k == docId
    · simp only [hk]
      exact find?_key_shape hr docId
    · simp only [hk]
      exact .some ⟨rfl, hcs⟩

/-- The fuel-indexed resolution functions respect shape equality. -/
theorem resolveF_shape : ∀ (fuel : Nat) {db db' : Collections}, SameShapeColls db db' →
    (∀ p, Option.Rel SameShapeColl (getCollectionF fuel db p) (getCollectionF fuel db' p)) ∧
    (∀ p, Option.Rel (Option.Rel docShapeRel)
      (getDocumentF fuel db p) (getDocumentF fuel db' p)) := by
  intro fuel
  induction fuel with
  | zero => exact fun _ => ⟨fun _ => .none, fun _ => .none⟩
  | succ fuel ih =>
    intro db db' h
    constructor
    · intro p
      simp only [getCollectionF]
      by_cases hp : dirname p = "."
      · rw [if_pos hp, if_pos hp]
        exact .some (lookupOrNil_shape h (basename p))
      · rw [if_neg hp, if_neg hp]
        have hd := (ih h).2 (dirname p)
        rcases hA : getDocumentF fuel db (dirname p) with _ | r1 <;>
          rcases hB : getDocumentF fuel db' (dirname p) with _ | r2 <;>
          rw [hA, hB] at hd
        · exact .none
        · cases hd
        · cases hd
        · cases hd with
          | some hrel =>
            rcases r1 with _ | d1 <;> rcases r2 with _ | d2
            · exact .some .nil
            · cases hrel
            · cases hrel
            · cases hrel with
              | some hdoc => exact .some (lookupOrNil_shape hdoc.2 (basename p))
    · intro p
      simp only [getDocumentF]
      have hc := (ih h).1 (dirname p)
      rcases hA : getCollectionF fuel db (dirname p) with _ | C1 <;>
        rcases hB : getCollectionF fuel db' (dirname p) with _ | C2 <;>
        rw [hA, hB] at hc
      · exact .none
      · cases hc
      · cases hc
      · cases hc with
        | some hcoll => exact .some (find?_key_shape hcoll (basename p))

/-- Shape equality preserves document existence. -/
theorem hasDocument_shape {db db' : Collections} (h : SameShapeColls db db') (p : String) :
    (getDocument db p).isSome = (getDocument db' p).isSome := by
  have hd := (resolveF_shape (numSegs p + 1) h).2 p
  unfold getDocument
  rcases hA : getDocumentF (numSegs p + 1) db p with _ | r1 <;>
    rcases hB : getDocumentF (numSegs p + 1) db' p with _ | r2 <;>
    rw [hA, hB] at hd <;> try rfl
  · cases hd
  · cases hd
  · cases hd with
    | some hrel =>
      rcases r1 with _ | d1 <;> rcases r2 with _ | d2
      · rfl
      · cases hrel
      · cases hrel
      · rfl

/-- Processing one batch operation preserves the dataset's shape. -/
theorem createBatchAfterFunctionMockStep_shape (db : Collections) (op : BatchOperation) :
    SameShapeColls db (createBatchAfterFunctionMockStep db op).2 := by
  rcases op with ⟨p, data⟩ | ⟨p, data⟩ | p
  · exact sameShapeColls_refl db
  · show SameShapeColls db
      (match getDocument db p with
       | some d => (Value.obj (applyUpdate d.fields data), setDocFields db p (applyUpdate d.fields data))
       | none => (Value.obj (applyUpdate [] data), db)).2
    rcases getDocument db p with _ | d
    · exact sameShapeColls_refl db
    · exact setDocFields_shape db p (applyUpdate d.fields data)
  · exact sameShapeColls_refl db

/-- Building the after-mocks preserves the dataset's shape. -/
theorem createBatchAfterFunctionMocks_shape :
    ∀ (batch : List BatchOperation) (db : Collections),
      SameShapeColls db (createBatchAfterFunctionMocks db batch).2 := by
  intro batch
  induction batch with
  | nil => intro db; exact sameShapeColls_refl db
  | cons op ops ih =>
    intro db
    rw [createBatchAfterFunctionMocks_cons]
    exact sameShapeColls_trans (createBatchAfterFunctionMockStep_shape db op)
      (ih (createBatchAfterFunctionMockStep db op).2)

/-- C3: each translated case's request method is `create` for a `set` whose
target is absent from the current dataset, `update` for a `set` whose target
exists, and the operation's own declared method for `update`/`delete`; its
resource data is the operation's payload (an object for `set`/`update` under
the library's typed API), or `null` for a `delete`. -/
theorem createCommitTest_translation (db : Collections) (allow : Bool) (auth : Auth)
    (batch : List BatchOperation)
    (hset : ∀ p v, BatchOperation.set p v ∈ batch → ∃ flds, v = Value.obj flds) :
    List.Forall₂ (fun (c : FirestoreTestCase) (op : BatchOperation) =>
      c.request.method =
        (match op with
         | .set _ _ => if hasDocument db op.document then "update" else "create"
         | .update _ _ => "update"
         | .delete _ => "delete") ∧
      c.resource.data =
        (match op with
         | .set _ v => v
         | .update _ data => Value.obj data
         | .delete _ => Value.null))
      (createCommitTest db allow auth batch).1 batch := by
  have hshape := createBatchAfterFunctionMocks_shape batch db
  show List.Forall₂ _ (batch.map _) batch
  rw [List.forall₂_map_left_iff]
  rw [List.forall₂_same]
  intro op hop
  rcases op with ⟨p, v⟩ | ⟨p, data⟩ | p
  · constructor
    · show (if (("set" : String) == "set") = true
          then if (getDocument (createBatchAfterFunctionMocks db batch).2 p).isSome
               then "update" else "create"
          else "set") =
        if (getDocument db p).isSome then "update" else "create"
      rw [if_pos (show (("set" : String) == "set") = true from rfl),
        ← hasDocument_shape hshape p]
    · show BatchOperation.dataOrNull (.set p v) = v
      obtain ⟨flds, rfl⟩ := hset p v hop
      rfl
  · exact ⟨rfl, rfl⟩
  · exact ⟨rfl, rfl⟩

/-- Witness for `createCommitTest_translation`: a one-`set` batch targeting a
fresh path on the sample dataset translates to method `create` with the
payload as resource data. -/
theorem createCommitTest_translation_witness :
    List.Forall₂ (fun (c : FirestoreTestCase) (op : BatchOperation) =>
      c.request.method =
        (match op with
         | .set _ _ => if hasDocument sampleDb op.document then "update" else "create"
         | .update _ _ => "update"
         | .delete _ => "delete") ∧
      c.resource.data =
        (match op with
         | .set _ v => v
         | .update _ data => Value.obj data
         | .delete _ => Value.null))
      (createCommitTest sampleDb true ⟨none⟩
        [.set "users/userC" (.obj [("name", .str "Carol")])]).1
      [.set "users/userC" (.obj [("name", .str "Carol")])] := by
  refine createCommitTest_translation sampleDb true ⟨none⟩ _ ?_
  intro p v h
  simp only [List.mem_singleton] at h
  injection h with h1 h2
  exact ⟨[("name", .str "Carol")], h2⟩

/-! ### Plain paths, well-formed datasets, and soundness of resolution (C7) -/

/-- A plain path segment: non-empty, slash-free, and not one of the
path-special names `"."` / `".."` (which Node's path functions treat
specially, so they cannot name a collection or document). -/
def plainSeg (s : List Char) : Bool :=
  !s.isEmpty && !s.contains '/' && !(s == ['.']) && !(s == ['.', '.'])

/-- A plain collection or document name. -/
def plainName (s : String) : Bool :=
  plainSeg s.data

/-- A well-formed path: a non-empty slash-separated sequence of plain
segments. -/
def plainPath (p : String) : Bool :=
  (segments p).all plainSeg

mutual

/-- Every collection name and document key of the dataset is plain. -/
def wellFormedDbColls : Collections → Bool
  | [] => true
  | (n, c) :: rest => plainName n && wellFormedDbColl c && wellFormedDbColls rest

/-- Every document key (and nested name) of the collection is plain. -/
def wellFormedDbColl : Collection → Bool
  | [] => true
  | .mk k _ cs :: rest => plainName k && wellFormedDbColls cs && wellFormedDbColl rest

end

/-- Every collection name and document key of the dataset is plain. -/
def wellFormedDb (db : Collections) : Bool :=
  wellFormedDbColls db

theorem wellFormedDbColls_cons {n : String} {c : Collection} {rest : Collections}
    (h : wellFormedDbColls ((n, c) :: rest) = true) :
    plainName n = true ∧ wellFormedDbColl c = true ∧ wellFormedDbColls rest = true := by
  rw [wellFormedDbColls] at h
  simp at h
  exact ⟨h.1.1, h.1.2, h.2⟩

theorem wellFormedDbColl_cons {k : String} {f : Fields} {cs : Collections}
    {rest : Collection}
    (h : wellFormedDbColl (.mk k f cs :: rest) = true) :
    plainName k = true ∧ wellFormedDbColls cs = true ∧ wellFormedDbColl rest = true := by
  rw [wellFormedDbColl] at h
  simp at h
  exact ⟨h.1.1, h.1.2, h.2⟩

/-- In a well-formed dataset every association hit is a well-formed
collection with a plain name. -/
theorem assocFind_wf {colls : Collections} (h : wellFormedDbColls colls = true)
    {name : String} {C : Collection} (hf : assocFind colls name = some C) :
    plainName name = true ∧ wellFormedDbColl C = true := by
  induction colls with
  | nil => simp [assocFind] at hf
  | cons kv rest ih =>
    obtain ⟨n, c⟩ := kv
    obtain ⟨hn, hc, hrest⟩ := wellFormedDbColls_cons h
    rw [show assocFind ((n, c) :: rest) name =
        if n == name then some c else assocFind rest name by
      simp only [assocFind, List.find?]
      cases hq : n == name <;> simp [hq]] at hf
    by_cases hq : (n == name) = true
    · rw [if_pos hq] at hf
      cases hf
      have hnn : n = name := beq_iff_eq.mp hq
      exact ⟨hnn ▸ hn, hc⟩
    · rw [if_neg hq] at hf
      exact ih hrest hf

/-- A well-formed dataset has no collection named `"."`. -/
theorem assocFind_dot_none {colls : Collections} (h : wellFormedDbColls colls = true) :
    assocFind colls "." = none := by
  rcases hf : assocFind colls "." with _ | C
  · rfl
  · have := (assocFind_wf h hf).1
    simp [plainName, plainSeg] at this

/-- Every document of a well-formed collection has a plain key and
well-formed sub-collections. -/
theorem mem_wf {C : Collection} (h : wellFormedDbColl C = true) {d : Doc}
    (hd : d ∈ C) :
    plainName d.key = true ∧ wellFormedDbColls d.collections = true := by
  induction C with
  | nil => simp at hd
  | cons d0 rest ih =>
    obtain ⟨k, f, cs⟩ := d0
    obtain ⟨hk, hcs, hrest⟩ := wellFormedDbColl_cons h
    rcases List.mem_cons.mp hd with hd | hd
    · subst hd
      exact ⟨hk, hcs⟩
    · exact ih hrest hd

/-- Each member of a collection is enumerated by the reference enumeration
with the joined path. -/
theorem mem_specDocEntriesColl_of_mem {C : Collection} {d : Doc} (hd : d ∈ C)
    (cp : String) :
    Entry.mk (joinPath cp d.key) d ∈ specDocEntriesColl C cp := by
  induction C with
  | nil => simp at hd
  | cons d0 rest ih =>
    obtain ⟨k, f, cs⟩ := d0
    rw [specDocEntriesColl]
    rcases List.mem_cons.mp hd with hd | hd
    · subst hd
      exact List.mem_cons_self _ _
    · exact List.mem_cons_of_mem _ (List.mem_append_right _ (ih hd))

/-- Entries of a named collection are entries of the enclosing collection
map's enumeration. -/
theorem mem_specDocEntriesColls_of_assocFind {colls : Collections} {name : String}
    {C : Collection} (hf : assocFind colls name = some C) {e : Entry} (pp : String)
    (he : e ∈ specDocEntriesColl C (joinPath pp name)) :
    e ∈ specDocEntriesColls colls pp := by
  induction colls with
  | nil => simp [assocFind] at hf
  | cons kv rest ih =>
    obtain ⟨n, c⟩ := kv
    rw [show assocFind ((n, c) :: rest) name =
        if n == name then some c else assocFind rest name by
      simp only [assocFind, List.find?]
      cases hq : n == name <;> simp [hq]] at hf
    rw [specDocEntriesColls]
    by_cases hq : (n == name) = true
    · rw [if_pos hq] at hf
      cases hf
      have hnn : n = name := beq_iff_eq.mp hq
      subst hnn
      exact List.mem_append_left _ he
    · rw [if_neg hq] at hf
      exact List.mem_append_right _ (ih hf)

mutual

/-- Entries of an enumerated document's own subtree belong to the enclosing
enumeration. -/
theorem subtree_mem_colls :
    ∀ (colls : Collections) (pp : String) {q : String} {D : Doc} {e : Entry},
      Entry.mk q D ∈ specDocEntriesColls colls pp →
      e ∈ specDocEntriesColls D.collections q →
      e ∈ specDocEntriesColls colls pp
  | [], pp, q, D, e, hm, _ => by
    rw [specDocEntriesColls] at hm
    cases hm
  | (n, c) :: rest, pp, q, D, e, hm, he => by
    rw [specDocEntriesColls] at hm ⊢
    rcases List.mem_append.mp hm with hm | hm
    · exact List.mem_append_left _ (subtree_mem_coll c (joinPath pp n) hm he)
    · exact List.mem_append_right _ (subtree_mem_colls rest pp hm he)

/-- Entries of an enumerated document's own subtree belong to the enclosing
enumeration. -/
theorem subtree_mem_coll :
    ∀ (C : Collection) (cp : String) {q : String} {D : Doc} {e : Entry},
      Entry.mk q D ∈ specDocEntriesColl C cp →
      e ∈ specDocEntriesColls D.collections q →
      e ∈ specDocEntriesColl C cp
  | [], cp, q, D, e, hm, _ => by
    rw [specDocEntriesColl] at hm
    cases hm
  | .mk k f cs :: rest, cp, q, D, e, hm, he => by
    rw [specDocEntriesColl] at hm ⊢
    rcases List.mem_cons.mp hm with hm | hm
    · injection hm with hq hD
      subst hq
      subst hD
      simp only [Doc.collections] at he
      exact List.mem_cons_of_mem _ (List.mem_append_left _ he)
    · rcases List.mem_append.mp hm with hm | hm
      · exact List.mem_cons_of_mem _
          (List.mem_append_left _ (subtree_mem_colls cs (joinPath cp k) hm he))
      · exact List.mem_cons_of_mem _
          (List.mem_append_right _ (subtree_mem_coll rest cp hm he))

end

theorem dropLast_segments_ne_nil {p : String} (h2 : 2 ≤ numSegs p) :
    (segments p).dropLast ≠ [] := by
  intro hnil
  have hlen : (segments p).dropLast.length = (segments p).length - 1 := by simp
  rw [hnil] at hlen
  simp [numSegs] at h2
  simp at hlen
  omega

theorem plain_dirname_ne_dot {p : String} (hp : plainPath p = true) (h2 : 2 ≤ numSegs p) :
    dirname p ≠ "." := by
  intro hdot
  have hgt : ¬ (segments p).length ≤ 1 := by
    simp only [numSegs] at h2
    omega
  rw [dirname, if_neg hgt] at hdot
  have hdata : joinChar '/' (segments p).dropLast = ("." : String).data :=
    congrArg String.data hdot
  have hne := dropLast_segments_ne_nil h2
  rcases hdl : (segments p).dropLast with _ | ⟨s, ss⟩
  · exact hne hdl
  · rcases ss with _ | ⟨t, ts⟩
    · rw [hdl] at hdata
      simp only [joinChar] at hdata
      have hs : s ∈ segments p :=
        List.mem_of_mem_dropLast (hdl ▸ List.mem_cons_self s [])
      have hps := (List.all_eq_true.mp hp) s hs
      rw [hdata] at hps
      simp [plainSeg] at hps
    · rw [hdl] at hdata
      have hmem : '/' ∈ joinChar '/' (s :: t :: ts) := by
        show '/' ∈ s ++ '/' :: joinChar '/' (t :: ts)
        exact List.mem_append_right _ (List.mem_cons_self _ _)
      rw [hdata] at hmem
      simp at hmem

theorem dirname_ne_empty {p : String} (hp : plainPath p = true) (h2 : 2 ≤ numSegs p) :
    dirname p ≠ "" := by
  intro h0
  have hgt : ¬ (segments p).length ≤ 1 := by
    simp only [numSegs] at h2
    omega
  rw [dirname, if_neg hgt] at h0
  have hdata : joinChar '/' (segments p).dropLast = ("" : String).data :=
    congrArg String.data h0
  have hne := dropLast_segments_ne_nil h2
  rcases hdl : (segments p).dropLast with _ | ⟨s, ss⟩
  · exact hne hdl
  · rcases ss with _ | ⟨t, ts⟩
    · rw [hdl] at hdata
      simp only [joinChar] at hdata
      have hs : s ∈ segments p :=
        List.mem_of_mem_dropLast (hdl ▸ List.mem_cons_self s [])
      have hps := (List.all_eq_true.mp hp) s hs
      rw [hdata] at hps
      simp [plainSeg] at hps
    · rw [hdl] at hdata
      have hmem : '/' ∈ joinChar '/' (s :: t :: ts) := by
        show '/' ∈ s ++ '/' :: joinChar '/' (t :: ts)
        exact List.mem_append_right _ (List.mem_cons_self _ _)
      rw [hdata] at hmem
      simp at hmem

theorem plainPath_dirname {p : String} (hp : plainPath p = true) (h2 : 2 ≤ numSegs p) :
    plainPath (dirname p) = true := by
  unfold plainPath
  rw [segments_dirname h2]
  rw [plainPath, List.all_eq_true] at hp
  rw [List.all_eq_true]
  intro s hs
  exact hp s (List.mem_of_mem_dropLast hs)

theorem segments_single {p : String} (h1 : numSegs p = 1) : segments p = [p.data] := by
  rcases hseg : segments p with _ | ⟨s, ss⟩
  · exact absurd hseg (segments_ne_nil p)
  · have hss : ss = [] := by
      rw [numSegs, hseg] at h1
      simpa using h1
    subst hss
    have hp := joinChar_splitChar '/' p.data
    rw [show splitChar '/' p.data = [s] from hseg] at hp
    simp only [joinChar] at hp
    rw [hp]

theorem basename_single {p : String} (h1 : numSegs p = 1) : basename p = p := by
  rw [basename, segments_single h1]
  rfl

theorem joinPath_empty (n : String) : joinPath "" n = n := by
  simp [joinPath]

theorem joinPath_dirname_basename {p : String} (hp : plainPath p = true)
    (h2 : 2 ≤ numSegs p) : joinPath (dirname p) (basename p) = p := by
  rw [joinPath, if_neg (dirname_ne_empty hp h2)]
  exact dirname_append_basename h2

/-- Soundness of path resolution: in a well-formed dataset, a resolved
document (or any member of a resolved collection) is enumerated by the
reference enumeration at exactly that path. -/
theorem resolveF_sound : ∀ fuel : Nat,
    (∀ (db : Collections) (p : String) (C : Collection),
      wellFormedDb db = true → plainPath p = true →
      getCollectionF fuel db p = some C →
      ∀ d ∈ C, Entry.mk (joinPath p d.key) d ∈ specDocEntries db) ∧
    (∀ (db : Collections) (p : String) (d : Doc),
      wellFormedDb db = true → plainPath p = true →
      getDocumentF fuel db p = some (some d) →
      Entry.mk p d ∈ specDocEntries db) := by
  intro fuel
  induction fuel with
  | zero =>
    constructor
    · intro db p C _ _ h
      simp [getCollectionF] at h
    · intro db p d _ _ h
      simp [getDocumentF] at h
  | succ fuel ih =>
    constructor
    · intro db p C hdb hp hC d hd
      simp only [getCollectionF] at hC
      by_cases hdot : dirname p = "."
      · rw [if_pos hdot] at hC
        cases hC
        have h1 : numSegs p = 1 := by
          by_contra hn
          have h2 : 2 ≤ numSegs p := by have := numSegs_pos p; omega
          exact plain_dirname_ne_dot hp h2 hdot
        have hb : basename p = p := basename_single h1
        rcases hf : assocFind db (basename p) with _ | C0
        · rw [show lookupOrNil db (basename p) = [] by simp [lookupOrNil, hf]] at hd
          cases hd
        · rw [show lookupOrNil db (basename p) = C0 by simp [lookupOrNil, hf]] at hd
          have hmem := mem_specDocEntriesColl_of_mem hd (joinPath "" (basename p))
          have hin := mem_specDocEntriesColls_of_assocFind hf "" hmem
          rw [joinPath_empty, hb] at hin
          exact hin
      · rw [if_neg hdot] at hC
        have h2 : 2 ≤ numSegs p := dirname_ne_dot_numSegs hdot
        rcases hD : getDocumentF fuel db (dirname p) with _ | r
        · rw [hD] at hC
          cases hC
        · rw [hD] at hC
          rcases r with _ | D
          · cases hC
            cases hd
          · cases hC
            have hpd : plainPath (dirname p) = true := plainPath_dirname hp h2
            have hDm := ih.2 db (dirname p) D hdb hpd hD
            rcases hf : assocFind D.collections (basename p) with _ | C0
            · rw [show lookupOrNil D.collections (basename p) = [] by
                simp [lookupOrNil, hf]] at hd
              cases hd
            · rw [show lookupOrNil D.collections (basename p) = C0 by
                simp [lookupOrNil, hf]] at hd
              have hmem := mem_specDocEntriesColl_of_mem hd
                (joinPath (dirname p) (basename p))
              have hin := mem_specDocEntriesColls_of_assocFind hf (dirname p) hmem
              have hsub := subtree_mem_colls db "" hDm hin
              rw [joinPath_dirname_basename hp h2] at hsub
              exact hsub
    · intro db p d hdb hp hD
      simp only [getDocumentF] at hD
      rcases hcol : getCollectionF fuel db (dirname p) with _ | Coll
      · rw [hcol] at hD
        cases hD
      · rw [hcol] at hD
        injection hD with hfind
        have hdmem : d ∈ Coll := List.mem_of_find?_eq_some hfind
        have hdkey : d.key = basename p := by
          have hkb := List.find?_some hfind
          simp only [beq_iff_eq] at hkb
          exact hkb
        by_cases h1 : numSegs p ≤ 1
        · have hdot : dirname p = "." := dirname_of_single h1
          rw [hdot] at hcol
          rcases fuel with _ | f
          · simp [getCollectionF] at hcol
          · rw [show getCollectionF (f + 1) db "." =
                some (lookupOrNil db (basename ".")) by
              simp [getCollectionF, show dirname "." = "." from rfl]] at hcol
            injection hcol with hcol'
            rw [show basename "." = "." from rfl] at hcol'
            rw [show lookupOrNil db "." = [] by
              simp [lookupOrNil, assocFind_dot_none hdb]] at hcol'
            rw [← hcol'] at hdmem
            cases hdmem
        · have h2 : 2 ≤ numSegs p := by omega
          have hpd := plainPath_dirname hp h2
          have hin := (ih.1 db (dirname p) Coll hdb hpd hcol) d hdmem
          rwa [hdkey, joinPath_dirname_basename hp h2] at hin

/-- C7: lookups never fail on missing paths.  For every well-formed path not
denoting a document of a well-formed dataset, `getDocument` returns absent
and `hasDocument` returns false; and whenever the addressed collection (its
root name, its parent document, or the parent's sub-collection) is missing,
`getCollection` returns the empty collection — absence is a normal return
value. -/
theorem lookup_missing_spec (db : Collections) (p : String)
    (hdb : wellFormedDb db = true) (hp : plainPath p = true) :
    ((¬ ∃ e ∈ getDocuments db "", e.path = p) →
      getDocument db p = none ∧ hasDocument db p = false) ∧
    (dirname p ≠ "." → getDocument db (dirname p) = none → getCollection db p = []) ∧
    (dirname p = "." → assocFind db (basename p) = none → getCollection db p = []) ∧
    (∀ d, dirname p ≠ "." → getDocument db (dirname p) = some d →
      assocFind d.collections (basename p) = none → getCollection db p = []) := by
  refine ⟨fun hno => ?_, fun hdot hnone => ?_, fun hdot hnone => ?_, fun d hdot hsome hnone => ?_⟩
  · rcases hd : getDocument db p with _ | d
    · exact ⟨rfl, by simp [hasDocument, hd]⟩
    · exfalso
      have hF : getDocumentF (numSegs p + 1) db p = some (some d) := by
        rw [getDocumentF_spec db p, hd]
      have hmem := (resolveF_sound (numSegs p + 1)).2 db p d hdb hp hF
      have hperm := getDocumentsColls_perm db "" []
      simp only [List.nil_append] at hperm
      exact hno ⟨Entry.mk p d, hperm.mem_iff.mpr hmem, rfl⟩
  · have h2 : 2 ≤ numSegs p := dirname_ne_dot_numSegs hdot
    have hfuel : getDocumentF (numSegs p) db (dirname p) = some none := by
      have := getDocumentF_spec db (dirname p)
      rw [hnone] at this
      rw [show numSegs p = numSegs (dirname p) + 1 by rw [numSegs_dirname h2]; omega]
      exact this
    rw [getCollection]
    simp only [getCollectionF, if_neg hdot, hfuel]
    rfl
  · rw [getCollection]
    simp only [getCollectionF, if_pos hdot]
    simp [lookupOrNil, hnone]
  · have h2 : 2 ≤ numSegs p := dirname_ne_dot_numSegs hdot
    have hfuel : getDocumentF (numSegs p) db (dirname p) = some (some d) := by
      have := getDocumentF_spec db (dirname p)
      rw [hsome] at this
      rw [show numSegs p = numSegs (dirname p) + 1 by rw [numSegs_dirname h2]; omega]
      exact this
    rw [getCollection]
    simp only [getCollectionF, if_neg hdot, hfuel]
    simp [lookupOrNil, hnone]

/-- Witness for `lookup_missing_spec`: the absent path `"users/userZ"` on the
sample dataset resolves to absent, not an error. -/
theorem lookup_missing_spec_witness :
    getDocument sampleDb "users/userZ" = none ∧
      hasDocument sampleDb "users/userZ" = false := by
  refine (lookup_missing_spec sampleDb "users/userZ" ?_ (by decide)).1 ?_
  · show wellFormedDbColls sampleDb = true
    rw [sampleDb]
    simp only [wellFormedDbColls, wellFormedDbColl]
    decide
  · intro hex
    obtain ⟨e, hmem, hpath⟩ := hex
    rw [show getDocuments sampleDb "" = getDocumentsColls sampleDb "" [] from rfl,
      sampleDb] at hmem
    simp only [getDocumentsColls, getDocumentsDocs, List.nil_append, List.cons_append,
      List.append_nil, List.mem_cons, List.not_mem_nil, or_false] at hmem
    rcases hmem with h | h | h
    all_goals (subst h; exact absurd hpath (by decide))

end ExpectFirestore
